import Mathlib

/-!
Shallow embedding of the constraint-propagation scheduler
(`scheduling.py`, with the time-slot layer from `tetris.py`).

Python sets of slots are modelled as Lean lists (iteration order),
in-place mutation as explicit state passing, the unbounded recursion of
`eliminate` and `schedules` as fuel-indexed functions (a fuel bound is
proved sufficient below), and Python `None` as `Option`.  The outer
`Option` layer of `eliminateF` distinguishes fuel exhaustion from the
`None` that `eliminate` itself returns on contradiction.
-/

section Engine

variable {P S : Type} [DecidableEq P] [DecidableEq S]

/-- An `Item` mirrors the Python dataclass `Item(name, participants, slots)`. -/
structure Item (P S : Type) where
  name : String
  participants : List P
  slots : List S
deriving DecidableEq

instance : Inhabited (Item P S) := ⟨⟨"", [], []⟩⟩

/-- Python `dataclasses.replace(self)`: a new record with the same field values. -/
def Item.copy (it : Item P S) : Item P S :=
  ⟨it.name, it.participants, it.slots⟩

/-- Python `Item.remove_slots`: filter out slots satisfying `fn`; report whether
the collection shrank, keeping the old value when it did not. -/
def Item.remove_slots (it : Item P S) (fn : S → Bool) : Bool × Item P S :=
  let new := it.slots.filter (fun s => !fn s)
  if new.length < it.slots.length then (true, { it with slots := new })
  else (false, it)

/-- Python `Item.impossible`: `len(self.slots) == 0`. -/
def Item.impossible (it : Item P S) : Bool := decide (it.slots.length = 0)

/-- Python `Item.scheduled`: `len(self.slots) == 1`. -/
def Item.scheduled (it : Item P S) : Bool := decide (it.slots.length = 1)

/-- Python `Item.unscheduled`: `len(self.slots) > 1`. -/
def Item.unscheduled (it : Item P S) : Bool := decide (1 < it.slots.length)

/-- Python `Item.overlapping_participants`: the participant sets intersect. -/
def Item.overlapping_participants (a b : Item P S) : Bool :=
  a.participants.any (fun p => decide (p ∈ b.participants))

/-- List indexing with the default item; Python `items[idx]` at in-range indices. -/
def getIt (items : List (Item P S)) (i : Nat) : Item P S :=
  items.getD i default

/-- Total number of candidate slots across a meeting list (the fuel measure). -/
def totalSlots (items : List (Item P S)) : Nat :=
  (items.map (fun it => it.slots.length)).sum

variable (ov : S → S → Bool)

/-- The propagation loop of Python `eliminate` (`for idx2, item2 in enumerate(items)`),
parametrised by the recursive eliminator `elim`, threading the mutated list. -/
def propagateWith
    (elim : List (Item P S) → Nat → (S → Bool) → Option (Option (List (Item P S)))) :
    List (Item P S) → Nat → S → List Nat → Option (Option (List (Item P S)))
  | items, _, _, [] => some (some items)
  | items, idx, s, k :: rest =>
    if k ≠ idx ∧ (getIt items idx).overlapping_participants (getIt items k) = true then
      match elim items k (fun x => ov s x) with
      | none => none
      | some none => some none
      | some (some items2) => propagateWith elim items2 idx s rest
    else propagateWith elim items idx s rest

/-- Python `eliminate(items, idx, fn)`, with fuel for the recursion:
`none` is fuel exhaustion, `some none` is the contradiction result `None`,
`some (some l)` is the (mutated) returned list. -/
def eliminateF : Nat → List (Item P S) → Nat → (S → Bool) → Option (Option (List (Item P S)))
  | 0, _, _, _ => none
  | fuel+1, items, idx, fn =>
    match items[idx]? with
    | none => some (some items)
    | some item =>
      match item.remove_slots fn with
      | (false, _) => some (some items)
      | (true, item2) =>
        let items2 := items.set idx item2
        if item2.impossible then some none
        else if item2.scheduled then
          match item2.slots with
          | [] => some none
          | s :: _ => propagateWith ov (eliminateF fuel) items2 idx s (List.range items.length)
        else some (some items2)

/-- Python `assign(items, idx, s)`: clone every item, then eliminate every
slot other than `s` from the item at `idx`. -/
def assignF (fuel : Nat) (items : List (Item P S)) (idx : Nat) (s : S) :
    Option (Option (List (Item P S))) :=
  eliminateF ov fuel (items.map Item.copy) idx (fun x => decide (x ≠ s))

/-- Stable insertion of an index into a key-sorted index list. -/
def insertByKey (key : Nat → Nat) (i : Nat) : List Nat → List Nat
  | [] => [i]
  | j :: rest => if key i ≤ key j then i :: j :: rest else j :: insertByKey key i rest

/-- Python `sorted(xs, key=key)` (stable, ascending) on index lists. -/
def sortedByKey (key : Nat → Nat) : List Nat → List Nat
  | [] => []
  | i :: rest => insertByKey key i (sortedByKey key rest)

/-- The inner slot loop of Python `schedules` (`for slot in items[idx].slots`),
parametrised by the recursive search `sch`; `none` propagates fuel exhaustion. -/
def trySlotsWith (sch : List (Item P S) → Option (List (List (Item P S))))
    (items : List (Item P S)) (idx : Nat) : List S → Option (List (List (Item P S)))
  | [] => some []
  | s :: rest =>
    let head : Option (List (List (Item P S))) :=
      match assignF ov (totalSlots items + 1) items idx s with
      | none => none
      | some none => some []
      | some (some a) => sch a
    match head with
    | none => none
    | some sols =>
      match trySlotsWith sch items idx rest with
      | none => none
      | some more => some (sols ++ more)

/-- The outer index loop of Python `schedules` (`for idx in sorted(unscheduled, ...)`). -/
def tryIdxsWith (sch : List (Item P S) → Option (List (List (Item P S))))
    (items : List (Item P S)) : List Nat → Option (List (List (Item P S)))
  | [] => some []
  | idx :: rest =>
    match trySlotsWith ov sch items idx (getIt items idx).slots with
    | none => none
    | some sols =>
      match tryIdxsWith sch items rest with
      | none => none
      | some more => some (sols ++ more)

/-- Python `schedules(items)` with fuel: the list of all yielded solutions,
in Python yield order; `none` is fuel exhaustion. -/
def schedulesF : Nat → List (Item P S) → Option (List (List (Item P S)))
  | 0, _ => none
  | fuel+1, items =>
    let uns := (List.range items.length).filter (fun i => (getIt items i).unscheduled)
    if uns.isEmpty then some [items]
    else
      tryIdxsWith ov (fun its => schedulesF fuel its) items
        (sortedByKey (fun i => (getIt items i).slots.length) uns)

/-- Pointwise relation between an output item and the input item it evolved from:
identity fields are untouched and the candidate list only narrows (as a sublist). -/
def ItemLe (a b : Item P S) : Prop :=
  a.name = b.name ∧ a.participants = b.participants ∧ a.slots.Sublist b.slots

/-- No meeting in the list has an empty candidate set. -/
def NoEmpty (items : List (Item P S)) : Prop :=
  ∀ i, i < items.length → (getIt items i).slots ≠ []

/-- Arc-consistency invariant with an exception set `E` of index pairs:
outside `E`, a scheduled meeting's slot overlaps no candidate slot of any
meeting sharing a participant with it. -/
def GoodE (ov : S → S → Bool) (E : Nat → Nat → Prop) (items : List (Item P S)) : Prop :=
  ∀ i, i < items.length → ∀ j, j < items.length → i ≠ j → ¬ E i j →
    (getIt items i).overlapping_participants (getIt items j) = true →
    (getIt items i).scheduled = true →
    ∀ t ∈ (getIt items i).slots, ∀ u ∈ (getIt items j).slots, ov t u = false

/-- Arc-consistency invariant with no exceptions. -/
def Good (ov : S → S → Bool) (items : List (Item P S)) : Prop :=
  GoodE ov (fun _ _ => False) items

/-- Soundness of one yielded solution: every meeting holds exactly one
candidate slot, and the slots of two meetings sharing a participant never
overlap. -/
def Sound (ov : S → S → Bool) (sol : List (Item P S)) : Prop :=
  (∀ i, i < sol.length → (getIt sol i).slots.length = 1) ∧
  (∀ i, i < sol.length → ∀ j, j < sol.length → i ≠ j →
    (getIt sol i).overlapping_participants (getIt sol j) = true →
    ∀ t ∈ (getIt sol i).slots, ∀ u ∈ (getIt sol j).slots, ov t u = false)

end Engine

/-!
Python object-level model for `Item.copy` (claim about aliasing):
an `ItemObj` is the dataclass record whose collection-valued fields are
references (`sref` for the slots set) into a store of allocated collections.
`dataclasses.replace(self)` builds a new record with the same field values,
so the references are shared, not copied.
-/

/-- A Python `Item` object: the `sref` field is the reference to its slots set
in the store, `pref` the reference to its participants set. -/
structure ItemObj where
  name : String
  pref : Nat
  sref : Nat
deriving DecidableEq

/-- Python `dataclasses.replace(self)`: a fresh record carrying the same
field values, hence the same collection references. -/
def copyObj (it : ItemObj) : ItemObj :=
  ⟨it.name, it.pref, it.sref⟩

/-- Python `Item.remove_slots` at the object level: the filtered result is a
freshly allocated set appended to the store, and the item's `sref` field is
rebound to it; the previously referenced set is never mutated. -/
def removeSlotsObj {S : Type} (st : List (List S)) (it : ItemObj) (fn : S → Bool) :
    Bool × ItemObj × List (List S) :=
  let cur := st.getD it.sref []
  let new := cur.filter (fun s => !fn s)
  if new.length < cur.length then (true, { it with sref := st.length }, st ++ [new])
  else (false, it, st)

/-!
Time-slot layer from `tetris.py`.
-/

/-- Day of the work week (`tetris.py` `Day`). -/
inductive Day where
  | monday
  | tuesday
  | wednesday
  | thursday
  | friday
deriving DecidableEq

/-- `tetris.py` `TimeSlot`: hour, minute, duration in minutes, and the set of
(day, week) pairs on the n-week calendar. -/
structure TimeSlot where
  hour : Int
  minute : Int
  duration : Int
  days : List (Day × Int)
deriving DecidableEq

/-- `TimeSlot.interval`: start and end in minutes from midnight. -/
def TimeSlot.interval (t : TimeSlot) : Int × Int :=
  let start := t.hour * 60 + t.minute
  (start, start + t.duration)

/-- `TimeSlot.time_overlaps`: the two minute intervals intersect. -/
def TimeSlot.time_overlaps (a b : TimeSlot) : Bool :=
  decide (¬ (a.interval.2 ≤ b.interval.1 ∨ a.interval.1 ≥ b.interval.2))

/-- `TimeSlot.days` intersection as Python `self.days & other.days` tested for
nonemptiness. -/
def TimeSlot.shares_days (a b : TimeSlot) : Bool :=
  a.days.any (fun d => decide (d ∈ b.days))

/-- A runtime `Slot` value is either an instance of the field-free base class
`Slot` or a `TimeSlot`. -/
inductive PySlot where
  | base
  | time (t : TimeSlot)
deriving DecidableEq

/-- Python `==` between slot values: dataclass equality within a class,
`False` across distinct classes. -/
def pyEq : PySlot → PySlot → Bool
  | .base, .base => true
  | .time a, .time b => decide (a = b)
  | _, _ => false

/-- Dynamic dispatch of `overlaps` on the receiver's class: `TimeSlot.overlaps`
checks `isinstance` and raises on a foreign kind; the base `Slot.overlaps`
returns `self == other`. -/
def PySlot.overlaps : PySlot → PySlot → Except String Bool
  | .time a, .time b => .ok (a.time_overlaps b && a.shares_days b)
  | .time _, .base => .error "Can only compare slots of the same type"
  | .base, other => .ok (pyEq .base other)

/-!
Concrete instances used by counterexamples and witnesses: the simple-identity
slot kind (slots are bare values compared by equality, as with base `Slot`).
-/

/-- Base-`Slot` overlap on the simple concrete slot kind: Python `self == other`. -/
def ovNat : Nat → Nat → Bool := fun a b => a == b

/-- Two meetings on disjoint participants, each with the two candidate slots 1, 2. -/
def c10items : List (Item Nat Nat) := [⟨"A", [0], [1, 2]⟩, ⟨"B", [1], [1, 2]⟩]

/-- One of the complete assignments of `c10items`. -/
def c10sol : List (Item Nat Nat) := [⟨"A", [0], [1]⟩, ⟨"B", [1], [1]⟩]

/-- Two meetings sharing participant 0, both restricted to the single slot 5. -/
def c3items : List (Item Nat Nat) := [⟨"A", [0], [5]⟩, ⟨"B", [0], [5]⟩]

/-- A meeting whose candidate set is already empty. -/
def c1zero : Item Nat Nat := ⟨"Z", [0], []⟩

/-- The full yield sequence of `schedulesF ovNat 4 c10items`, in Python yield
order: every one of the four complete assignments appears twice, once under
each top-level choice of first meeting. -/
def c10sols : List (List (Item Nat Nat)) :=
  [[⟨"A", [0], [1]⟩, ⟨"B", [1], [1]⟩], [⟨"A", [0], [1]⟩, ⟨"B", [1], [2]⟩],
   [⟨"A", [0], [2]⟩, ⟨"B", [1], [1]⟩], [⟨"A", [0], [2]⟩, ⟨"B", [1], [2]⟩],
   [⟨"A", [0], [1]⟩, ⟨"B", [1], [1]⟩], [⟨"A", [0], [2]⟩, ⟨"B", [1], [1]⟩],
   [⟨"A", [0], [1]⟩, ⟨"B", [1], [2]⟩], [⟨"A", [0], [2]⟩, ⟨"B", [1], [2]⟩]]

/-- Result of assigning meeting 0 of `c10items` to slot 1. -/
def assignOut : List (Item Nat Nat) := [⟨"A", [0], [1]⟩, ⟨"B", [1], [1, 2]⟩]

/-- A zero-duration time slot: it is equal to itself yet does not overlap itself. -/
def c8slot : TimeSlot := ⟨9, 0, 0, [(Day.monday, 1)]⟩

/-- An ordinary time slot used against the base slot kind. -/
def c9slot : TimeSlot := ⟨10, 30, 60, [(Day.tuesday, 0)]⟩

/-!
Structural lemmas about the engine.
-/

section EngineLemmas

variable {P S : Type} [DecidableEq P] [DecidableEq S] {ov : S → S → Bool}

theorem itemLe_refl (a : Item P S) : ItemLe a a :=
  ⟨rfl, rfl, List.Sublist.refl _⟩

theorem itemLe_trans {a b c : Item P S} (h1 : ItemLe a b) (h2 : ItemLe b c) : ItemLe a c :=
  ⟨h1.1.trans h2.1, h1.2.1.trans h2.2.1, h1.2.2.trans h2.2.2⟩

theorem forall2_itemLe_refl : ∀ l : List (Item P S), List.Forall₂ ItemLe l l
  | [] => .nil
  | a :: l => .cons (itemLe_refl a) (forall2_itemLe_refl l)

theorem forall2_itemLe_trans {l1 l2 l3 : List (Item P S)}
    (h1 : List.Forall₂ ItemLe l1 l2) (h2 : List.Forall₂ ItemLe l2 l3) :
    List.Forall₂ ItemLe l1 l3 := by
  induction h1 generalizing l3 with
  | nil => cases h2; exact .nil
  | cons hab h ih =>
    cases h2 with
    | cons hbc h2t => exact .cons (itemLe_trans hab hbc) (ih h2t)

theorem getIt_cons_zero (a : Item P S) (l : List (Item P S)) : getIt (a :: l) 0 = a := rfl

theorem getIt_cons_succ (a : Item P S) (l : List (Item P S)) (n : Nat) :
    getIt (a :: l) (n + 1) = getIt l n := rfl

theorem getIt_eq_of_getElem? {items : List (Item P S)} {i : Nat} {a : Item P S}
    (h : items[i]? = some a) : getIt items i = a := by
  unfold getIt
  rw [List.getD_eq_getElem?_getD, h]
  rfl

theorem getIt_set_self {items : List (Item P S)} {i : Nat} (hi : i < items.length)
    (a : Item P S) : getIt (items.set i a) i = a := by
  unfold getIt
  rw [List.getD_eq_getElem?_getD, List.getElem?_set_self', List.getElem?_eq_getElem hi]
  rfl

theorem getIt_set_ne {items : List (Item P S)} {i j : Nat} (h : i ≠ j) (a : Item P S) :
    getIt (items.set i a) j = getIt items j := by
  unfold getIt
  rw [List.getD_eq_getElem?_getD, List.getElem?_set_ne h, ← List.getD_eq_getElem?_getD]

theorem forall2_itemLe_getIt {l1 l2 : List (Item P S)} (h : List.Forall₂ ItemLe l1 l2) :
    ∀ i, ItemLe (getIt l1 i) (getIt l2 i) := by
  induction h with
  | nil => exact fun i => itemLe_refl _
  | cons hab h ih =>
    intro i
    cases i with
    | zero => exact hab
    | succ n => exact ih n

theorem forall2_itemLe_set {items : List (Item P S)} {i : Nat} {a : Item P S}
    (hi : i < items.length) (ha : ItemLe a (getIt items i)) :
    List.Forall₂ ItemLe (items.set i a) items := by
  induction items generalizing i with
  | nil => simp at hi
  | cons b l ih =>
    cases i with
    | zero => exact .cons ha (forall2_itemLe_refl l)
    | succ n => exact .cons (itemLe_refl b) (ih (by simpa using hi) ha)

theorem remove_slots_slots (it : Item P S) (fn : S → Bool) :
    ((it.remove_slots fn).2).slots = it.slots.filter (fun s => !fn s) := by
  unfold Item.remove_slots
  dsimp only
  split
  · rfl
  · rename_i h
    have hs : (it.slots.filter (fun s => !fn s)).Sublist it.slots := List.filter_sublist _
    exact (hs.eq_of_length (Nat.le_antisymm hs.length_le (Nat.le_of_not_lt h))).symm

theorem remove_slots_itemLe (it : Item P S) (fn : S → Bool) :
    ItemLe (it.remove_slots fn).2 it := by
  refine ⟨?_, ?_, ?_⟩
  · unfold Item.remove_slots; dsimp only; split <;> rfl
  · unfold Item.remove_slots; dsimp only; split <;> rfl
  · rw [remove_slots_slots]; exact List.filter_sublist _

theorem remove_slots_true_lt {it : Item P S} {fn : S → Bool} {it2 : Item P S}
    (h : it.remove_slots fn = (true, it2)) : it2.slots.length < it.slots.length := by
  unfold Item.remove_slots at h
  dsimp only at h
  split at h
  · rename_i hlt
    cases h
    exact hlt
  · cases h

theorem remove_slots_false_eq {it : Item P S} {fn : S → Bool} {b : Item P S}
    (h : it.remove_slots fn = (false, b)) : b = it := by
  unfold Item.remove_slots at h
  dsimp only at h
  split at h
  · cases h
  · cases h; rfl

theorem remove_slots_false_all {it : Item P S} {fn : S → Bool} {b : Item P S}
    (h : it.remove_slots fn = (false, b)) : ∀ u ∈ it.slots, fn u = false := by
  unfold Item.remove_slots at h
  dsimp only at h
  split at h
  · cases h
  · rename_i hnlt
    have hs : (it.slots.filter (fun s => !fn s)).Sublist it.slots := List.filter_sublist _
    have heq : it.slots.filter (fun s => !fn s) = it.slots :=
      hs.eq_of_length (Nat.le_antisymm hs.length_le (Nat.le_of_not_lt hnlt))
    intro u hu
    have := (List.filter_eq_self.mp heq) u hu
    simpa using this

theorem remove_slots_true_iff (it : Item P S) (fn : S → Bool) :
    (it.remove_slots fn).1 = true ↔
      ((it.remove_slots fn).2).slots.length < it.slots.length := by
  unfold Item.remove_slots
  dsimp only
  split
  · rename_i hlt
    exact ⟨fun _ => hlt, fun _ => rfl⟩
  · rename_i hnlt
    constructor
    · intro h
      cases h
    · intro h
      exact absurd h (Nat.lt_irrefl _)

theorem propagateWith_itemLe
    {elim : List (Item P S) → Nat → (S → Bool) → Option (Option (List (Item P S)))}
    (helim : ∀ items k fn out, elim items k fn = some (some out) → List.Forall₂ ItemLe out items) :
    ∀ (l : List Nat) (items : List (Item P S)) (idx : Nat) (s : S) (out : List (Item P S)),
      propagateWith ov elim items idx s l = some (some out) → List.Forall₂ ItemLe out items := by
  intro l
  induction l with
  | nil =>
    intro items idx s out h
    rw [propagateWith] at h
    cases h
    exact forall2_itemLe_refl items
  | cons k rest ih =>
    intro items idx s out h
    rw [propagateWith] at h
    split at h
    · split at h
      · cases h
      · cases h
      · rename_i items2 he
        exact forall2_itemLe_trans (ih items2 idx s out h) (helim _ _ _ _ he)
    · exact ih items idx s out h

theorem eliminateF_itemLe :
    ∀ (fuel : Nat) (items : List (Item P S)) (idx : Nat) (fn : S → Bool)
      (out : List (Item P S)),
      eliminateF ov fuel items idx fn = some (some out) → List.Forall₂ ItemLe out items := by
  intro fuel
  induction fuel with
  | zero => intro items idx fn out h; cases h
  | succ fuel ih =>
    intro items idx fn out h
    rw [eliminateF] at h
    split at h
    · cases h
      exact forall2_itemLe_refl items
    · rename_i item hidx
      split at h
      · cases h
        exact forall2_itemLe_refl items
      · rename_i item2 hrm
        have hlt : idx < items.length := (List.getElem?_eq_some.mp hidx).1
        have hle2 : ItemLe item2 (getIt items idx) := by
          rw [getIt_eq_of_getElem? hidx]
          have := remove_slots_itemLe item fn
          rwa [hrm] at this
        have hset : List.Forall₂ ItemLe (items.set idx item2) items :=
          forall2_itemLe_set hlt hle2
        split at h
        · cases h
        · split at h
          · split at h
            · cases h
            · rename_i s tail hslots
              exact forall2_itemLe_trans (propagateWith_itemLe ih _ _ _ _ _ h) hset
          · cases h
            exact hset

theorem totalSlots_le_of_forall2 {l1 l2 : List (Item P S)}
    (h : List.Forall₂ ItemLe l1 l2) : totalSlots l1 ≤ totalSlots l2 := by
  induction h with
  | nil => exact Nat.le_refl _
  | cons hab h ih =>
    unfold totalSlots at *
    simp only [List.map_cons, List.sum_cons]
    exact Nat.add_le_add hab.2.2.length_le ih

theorem totalSlots_cons (a : Item P S) (l : List (Item P S)) :
    totalSlots (a :: l) = a.slots.length + totalSlots l := by
  unfold totalSlots
  simp

theorem totalSlots_set_lt {items : List (Item P S)} {i : Nat} {a : Item P S}
    (hi : i < items.length) (ha : a.slots.length < (getIt items i).slots.length) :
    totalSlots (items.set i a) < totalSlots items := by
  induction items generalizing i with
  | nil => simp at hi
  | cons b l ih =>
    cases i with
    | zero =>
      rw [List.set_cons_zero, totalSlots_cons, totalSlots_cons]
      exact Nat.add_lt_add_right ha _
    | succ n =>
      rw [List.set_cons_succ, totalSlots_cons, totalSlots_cons]
      exact Nat.add_lt_add_left (ih (by simpa using hi) ha) _

theorem getIt_lt_of_slots_ne {items : List (Item P S)} {i : Nat}
    (h : (getIt items i).slots ≠ []) : i < items.length := by
  by_contra hc
  have hnone : items[i]? = none := List.getElem?_eq_none (Nat.le_of_not_lt hc)
  unfold getIt at h
  rw [List.getD_eq_getElem?_getD, hnone] at h
  exact h rfl

theorem sublist_singleton_of_ne {l : List S} {s : S} (hs : l.Sublist [s]) (hne : l ≠ []) :
    l = [s] := by
  cases l with
  | nil => exact absurd rfl hne
  | cons a t =>
    have hlen : (a :: t).length ≤ 1 := hs.length_le
    have ht : t = [] := by
      cases t with
      | nil => rfl
      | cons x y => simp at hlen
    subst ht
    have ha : a ∈ [s] := hs.subset (List.mem_singleton_self a)
    simp at ha
    rw [ha]

theorem overlapping_congr_right {a b c : Item P S} (h : b.participants = c.participants) :
    a.overlapping_participants b = a.overlapping_participants c := by
  unfold Item.overlapping_participants
  rw [h]

theorem propagateWith_noEmpty
    {elim : List (Item P S) → Nat → (S → Bool) → Option (Option (List (Item P S)))}
    (helimNE : ∀ items k fn out, NoEmpty items → elim items k fn = some (some out) →
      NoEmpty out) :
    ∀ (l : List Nat) (items : List (Item P S)) (idx : Nat) (s : S) (out : List (Item P S)),
      NoEmpty items → propagateWith ov elim items idx s l = some (some out) → NoEmpty out := by
  intro l
  induction l with
  | nil =>
    intro items idx s out hNE h
    rw [propagateWith] at h
    cases h
    exact hNE
  | cons k rest ih =>
    intro items idx s out hNE h
    rw [propagateWith] at h
    split at h
    · split at h
      · cases h
      · cases h
      · rename_i items2 he
        exact ih items2 idx s out (helimNE _ _ _ _ hNE he) h
    · exact ih items idx s out hNE h

theorem eliminateF_noEmpty :
    ∀ (fuel : Nat) (items : List (Item P S)) (idx : Nat) (fn : S → Bool)
      (out : List (Item P S)),
      NoEmpty items → eliminateF ov fuel items idx fn = some (some out) → NoEmpty out := by
  intro fuel
  induction fuel with
  | zero => intro items idx fn out _ h; cases h
  | succ fuel ih =>
    intro items idx fn out hNE h
    rw [eliminateF] at h
    split at h
    · cases h; exact hNE
    · rename_i item hidx
      split at h
      · cases h; exact hNE
      · rename_i item2 hrm
        have hlt : idx < items.length := (List.getElem?_eq_some.mp hidx).1
        split at h
        · cases h
        · rename_i hposs
          have hNE2 : NoEmpty (items.set idx item2) := by
            intro i hi
            by_cases hii : i = idx
            · subst hii
              rw [getIt_set_self hlt]
              intro hnil
              exact hposs (by unfold Item.impossible; rw [hnil]; rfl)
            · rw [getIt_set_ne (fun hh => hii hh.symm)]
              exact hNE i (by simpa using hi)
          split at h
          · split at h
            · cases h
            · exact propagateWith_noEmpty ih _ _ _ _ _ hNE2 h
          · cases h
            exact hNE2

theorem eliminateF_filter {fuel : Nat} {items : List (Item P S)} {idx : Nat}
    {fn : S → Bool} {out : List (Item P S)}
    (h : eliminateF ov fuel items idx fn = some (some out)) :
    ∀ u ∈ (getIt out idx).slots, fn u = false := by
  match fuel with
  | 0 => cases h
  | fuel + 1 =>
    rw [eliminateF] at h
    split at h
    · rename_i hidx
      cases h
      unfold getIt
      rw [List.getD_eq_getElem?_getD, hidx]
      intro u hu
      cases hu
    · rename_i item hidx
      split at h
      · rename_i b hrm
        cases h
        rw [getIt_eq_of_getElem? hidx]
        exact remove_slots_false_all hrm
      · rename_i item2 hrm
        have hlt : idx < items.length := (List.getElem?_eq_some.mp hidx).1
        have hfil : ∀ u ∈ item2.slots, fn u = false := by
          intro u hu
          have hslots : item2.slots = item.slots.filter (fun s => !fn s) := by
            have := remove_slots_slots item fn
            rwa [hrm] at this
          rw [hslots] at hu
          have := (List.mem_filter.mp hu).2
          simpa using this
        split at h
        · cases h
        · split at h
          · split at h
            · cases h
            · rename_i s tail hslots2
              have hle : List.Forall₂ ItemLe out (items.set idx item2) :=
                propagateWith_itemLe (eliminateF_itemLe fuel) _ _ _ _ _ h
              have hsub : (getIt out idx).slots.Sublist item2.slots := by
                have := (forall2_itemLe_getIt hle idx).2.2
                rwa [getIt_set_self hlt] at this
              exact fun u hu => hfil u (hsub.subset hu)
          · cases h
            rw [getIt_set_self hlt]
            exact hfil

theorem propagateWith_ne_none
    {elim : List (Item P S) → Nat → (S → Bool) → Option (Option (List (Item P S)))}
    {B : Nat}
    (helimLe : ∀ items k fn out, elim items k fn = some (some out) →
      List.Forall₂ ItemLe out items)
    (helimN : ∀ items k fn, totalSlots items ≤ B → elim items k fn ≠ none) :
    ∀ (l : List Nat) (items : List (Item P S)) (idx : Nat) (s : S),
      totalSlots items ≤ B → propagateWith ov elim items idx s l ≠ none := by
  intro l
  induction l with
  | nil =>
    intro items idx s hB
    rw [propagateWith]
    simp
  | cons k rest ih =>
    intro items idx s hB
    rw [propagateWith]
    split
    · split
      · rename_i he
        exact absurd he (helimN _ _ _ hB)
      · simp
      · rename_i items2 he
        exact ih items2 idx s
          (Nat.le_trans (totalSlots_le_of_forall2 (helimLe _ _ _ _ he)) hB)
    · exact ih items idx s hB

theorem eliminateF_ne_none :
    ∀ (fuel : Nat) (items : List (Item P S)) (idx : Nat) (fn : S → Bool),
      totalSlots items < fuel → eliminateF ov fuel items idx fn ≠ none := by
  intro fuel
  induction fuel with
  | zero => intro items idx fn h; exact absurd h (Nat.not_lt_zero _)
  | succ fuel ih =>
    intro items idx fn hfuel
    rw [eliminateF]
    split
    · simp
    · rename_i item hidx
      split
      · simp
      · rename_i item2 hrm
        have hlt : idx < items.length := (List.getElem?_eq_some.mp hidx).1
        have hdec : totalSlots (items.set idx item2) < totalSlots items := by
          apply totalSlots_set_lt hlt
          rw [getIt_eq_of_getElem? hidx]
          exact remove_slots_true_lt hrm
        split
        · simp
        · split
          · split
            · simp
            · rename_i s tail hslots
              apply propagateWith_ne_none (eliminateF_itemLe fuel)
                (fun items3 k fn3 h3 => ih items3 k fn3
                  (Nat.lt_of_le_of_lt h3
                    (Nat.lt_of_lt_of_le hdec (Nat.le_of_lt_succ hfuel))))
                _ _ _ _ (Nat.le_refl _)
          · simp

theorem propagateWith_goodE
    {elim : List (Item P S) → Nat → (S → Bool) → Option (Option (List (Item P S)))}
    (helimG : ∀ (E : Nat → Nat → Prop) items k fn out, GoodE ov E items → NoEmpty items →
      elim items k fn = some (some out) → GoodE ov E out)
    (helimNE : ∀ items k fn out, NoEmpty items → elim items k fn = some (some out) →
      NoEmpty out)
    (helimLe : ∀ items k fn out, elim items k fn = some (some out) →
      List.Forall₂ ItemLe out items)
    (helimFil : ∀ items k fn out, elim items k fn = some (some out) →
      ∀ u ∈ (getIt out k).slots, fn u = false) :
    ∀ (l : List Nat) (E : Nat → Nat → Prop) (items : List (Item P S)) (idx : Nat) (s : S)
      (out : List (Item P S)),
      GoodE ov (fun i j => E i j ∨ (i = idx ∧ j ∈ l)) items →
      NoEmpty items →
      (getIt items idx).slots = [s] →
      propagateWith ov elim items idx s l = some (some out) →
      GoodE ov E out := by
  intro l
  induction l with
  | nil =>
    intro E items idx s out hG hNE hidxs h
    rw [propagateWith] at h
    cases h
    intro i hi j hj hne hE hop hsched
    exact hG i hi j hj hne
      (fun hor => hor.elim (fun he => hE he) (fun hand => List.not_mem_nil j hand.2))
      hop hsched
  | cons k rest ih =>
    intro E items idx s out hG hNE hidxs h
    rw [propagateWith] at h
    split at h
    · rename_i hcond
      split at h
      · cases h
      · cases h
      · rename_i items2 he
        have hNE2 : NoEmpty items2 := helimNE _ _ _ _ hNE he
        have hLe2 : List.Forall₂ ItemLe items2 items := helimLe _ _ _ _ he
        have hlen2 : items2.length = items.length := hLe2.length_eq
        have hidxlt : idx < items.length :=
          getIt_lt_of_slots_ne (by rw [hidxs]; simp)
        have hidx2 : (getIt items2 idx).slots = [s] := by
          apply sublist_singleton_of_ne
          · have := (forall2_itemLe_getIt hLe2 idx).2.2
            rwa [hidxs] at this
          · exact hNE2 idx (by rw [hlen2]; exact hidxlt)
        have hG2 : GoodE ov (fun i j => E i j ∨ (i = idx ∧ j ∈ rest)) items2 := by
          intro i hi j hj hne hEx hop hsched t ht u hu
          by_cases hx : E i j ∨ (i = idx ∧ j ∈ k :: rest)
          · rcases hx with hx | ⟨hieq, hjk⟩
            · exact absurd (Or.inl hx) hEx
            · rcases List.mem_cons.mp hjk with hjk | hjr
              · subst hieq
                subst hjk
                rw [hidx2] at ht
                have hsu := helimFil _ _ _ _ he u hu
                simp at ht
                subst ht
                simpa using hsu
              · exact absurd (Or.inr ⟨hieq, hjr⟩) hEx
          · exact helimG _ _ _ _ _ hG hNE he i hi j hj hne hx hop hsched t ht u hu
        exact ih E items2 idx s out hG2 hNE2 hidx2 h
    · rename_i hcond
      apply ih E items idx s out ?_ hNE hidxs h
      intro i hi j hj hne hEx hop hsched t ht u hu
      by_cases hx : E i j ∨ (i = idx ∧ j ∈ k :: rest)
      · rcases hx with hx | ⟨hieq, hjk⟩
        · exact absurd (Or.inl hx) hEx
        · rcases List.mem_cons.mp hjk with hjk | hjr
          · subst hieq
            subst hjk
            exact absurd ⟨Ne.symm hne, hop⟩ hcond
          · exact absurd (Or.inr ⟨hieq, hjr⟩) hEx
      · exact hG i hi j hj hne hx hop hsched t ht u hu

theorem eliminateF_goodE :
    ∀ (fuel : Nat) (E : Nat → Nat → Prop) (items : List (Item P S)) (idx : Nat)
      (fn : S → Bool) (out : List (Item P S)),
      GoodE ov E items → NoEmpty items →
      eliminateF ov fuel items idx fn = some (some out) → GoodE ov E out := by
  intro fuel
  induction fuel with
  | zero => intro E items idx fn out _ _ h; cases h
  | succ fuel ih =>
    intro E items idx fn out hG hNE h
    rw [eliminateF] at h
    split at h
    · cases h; exact hG
    · rename_i item hidx
      split at h
      · cases h; exact hG
      · rename_i item2 hrm
        have hlt : idx < items.length := (List.getElem?_eq_some.mp hidx).1
        have hitem : getIt items idx = item := getIt_eq_of_getElem? hidx
        have hparts : item2.participants = item.participants := by
          have h2 := remove_slots_itemLe item fn
          rw [hrm] at h2
          exact h2.2.1
        have hsub2 : item2.slots.Sublist item.slots := by
          have h2 := remove_slots_itemLe item fn
          rw [hrm] at h2
          exact h2.2.2
        have htrans : ∀ (i j : Nat), i < (items.set idx item2).length →
            j < (items.set idx item2).length → i ≠ j → ¬ E i j → i ≠ idx →
            (getIt (items.set idx item2) i).overlapping_participants
              (getIt (items.set idx item2) j) = true →
            (getIt (items.set idx item2) i).scheduled = true →
            ∀ t ∈ (getIt (items.set idx item2) i).slots,
              ∀ u ∈ (getIt (items.set idx item2) j).slots, ov t u = false := by
          intro i j hi hj hne hEij hii hop hsched t ht u hu
          rw [getIt_set_ne (fun hh => hii hh.symm)] at hop hsched ht
          by_cases hjj : j = idx
          · rw [hjj] at hop hu hEij
            rw [getIt_set_self hlt] at hop hu
            have hcongr : (getIt items i).overlapping_participants item2 =
                (getIt items i).overlapping_participants (getIt items idx) :=
              overlapping_congr_right (by rw [hitem]; exact hparts)
            have hop2 := hcongr.symm.trans hop
            have hu2 : u ∈ (getIt items idx).slots := by
              rw [hitem]
              exact hsub2.subset hu
            exact hG i (by simpa using hi) idx hlt hii hEij hop2 hsched t ht u hu2
          · rw [getIt_set_ne (fun hh => hjj hh.symm)] at hop hu
            exact hG i (by simpa using hi) j (by simpa using hj) hne hEij hop hsched t ht u hu
        split at h
        · cases h
        · rename_i hposs
          split at h
          · rename_i hsched2
            split at h
            · cases h
            · rename_i s tail hslots
              have hslots1 : item2.slots = [s] := by
                unfold Item.scheduled at hsched2
                have hl1 : item2.slots.length = 1 := by simpa using hsched2
                rw [hslots] at hl1 ⊢
                simp only [List.length_cons, Nat.add_left_eq_self] at hl1
                simp [List.length_eq_zero.mp hl1]
              apply propagateWith_goodE ih (eliminateF_noEmpty fuel)
                (eliminateF_itemLe fuel)
                (fun a b c d hh => eliminateF_filter hh)
                (List.range items.length) E (items.set idx item2) idx s out ?_ ?_ ?_ h
              · intro i hi j hj hne hEx hop hsched t ht u hu
                have hii : i ≠ idx := by
                  intro hieq
                  exact hEx (Or.inr ⟨hieq, List.mem_range.mpr (by simpa using hj)⟩)
                exact htrans i j hi hj hne (fun he2 => hEx (Or.inl he2)) hii hop hsched t ht u hu
              · intro i hi
                by_cases hii : i = idx
                · subst hii
                  rw [getIt_set_self hlt, hslots1]
                  simp
                · rw [getIt_set_ne (fun hh => hii hh.symm)]
                  exact hNE i (by simpa using hi)
              · rw [getIt_set_self hlt]
                exact hslots1
          · rename_i hnsched
            cases h
            intro i hi j hj hne hEij hop hsched t ht u hu
            by_cases hii : i = idx
            · subst hii
              rw [getIt_set_self hlt] at hsched
              exact absurd hsched hnsched
            · exact htrans i j hi hj hne hEij hii hop hsched t ht u hu

theorem map_copy_id (items : List (Item P S)) : items.map Item.copy = items :=
  List.map_id'' (fun _ => rfl) items

theorem assignF_preserves {fuel : Nat} {items : List (Item P S)} {idx : Nat} {s : S}
    {a : List (Item P S)} (hG : Good ov items) (hNE : NoEmpty items)
    (h : assignF ov fuel items idx s = some (some a)) : Good ov a ∧ NoEmpty a := by
  unfold assignF at h
  rw [map_copy_id] at h
  exact ⟨eliminateF_goodE fuel (fun _ _ => False) items idx _ a hG hNE h,
    eliminateF_noEmpty fuel items idx _ a hNE h⟩

theorem trySlotsWith_cons_inv
    {sch : List (Item P S) → Option (List (List (Item P S)))}
    {items : List (Item P S)} {idx : Nat} {s : S} {rest : List S}
    {sols : List (List (Item P S))}
    (h : trySlotsWith ov sch items idx (s :: rest) = some sols) :
    ∃ sols1 more, sols = sols1 ++ more ∧
      trySlotsWith ov sch items idx rest = some more ∧
      ((assignF ov (totalSlots items + 1) items idx s = some none ∧ sols1 = []) ∨
        (∃ a, assignF ov (totalSlots items + 1) items idx s = some (some a) ∧
          sch a = some sols1)) := by
  rw [trySlotsWith] at h
  split at h
  · cases h
  · rename_i sols1 heq
    split at h
    · cases h
    · rename_i more hrest
      cases h
      refine ⟨sols1, more, rfl, hrest, ?_⟩
      split at heq
      · cases heq
      · cases heq
        exact Or.inl ⟨by assumption, rfl⟩
      · rename_i a ha
        exact Or.inr ⟨a, ha, heq⟩

theorem tryIdxsWith_cons_inv
    {sch : List (Item P S) → Option (List (List (Item P S)))}
    {items : List (Item P S)} {idx : Nat} {rest : List Nat}
    {sols : List (List (Item P S))}
    (h : tryIdxsWith ov sch items (idx :: rest) = some sols) :
    ∃ sols1 more, sols = sols1 ++ more ∧
      trySlotsWith ov sch items idx (getIt items idx).slots = some sols1 ∧
      tryIdxsWith ov sch items rest = some more := by
  rw [tryIdxsWith] at h
  split at h
  · cases h
  · rename_i sols1 heq
    split at h
    · cases h
    · rename_i more hrest
      cases h
      exact ⟨sols1, more, rfl, heq, hrest⟩

theorem trySlotsWith_sound
    {sch : List (Item P S) → Option (List (List (Item P S)))}
    (hsch : ∀ its sols2, Good ov its → NoEmpty its → sch its = some sols2 →
      ∀ sol ∈ sols2, Sound ov sol) :
    ∀ (sl : List S) (items : List (Item P S)) (idx : Nat) (sols : List (List (Item P S))),
      Good ov items → NoEmpty items →
      trySlotsWith ov sch items idx sl = some sols → ∀ sol ∈ sols, Sound ov sol := by
  intro sl
  induction sl with
  | nil =>
    intro items idx sols _ _ h sol hsol
    rw [trySlotsWith] at h
    cases h
    cases hsol
  | cons s rest ih =>
    intro items idx sols hG hNE h sol hsol
    obtain ⟨sols1, more, rfl, hrest, hcase⟩ := trySlotsWith_cons_inv h
    rcases List.mem_append.mp hsol with hs1 | hs2
    · rcases hcase with ⟨_, rfl⟩ | ⟨a, ha, hsa⟩
      · cases hs1
      · obtain ⟨hGa, hNEa⟩ := assignF_preserves hG hNE ha
        exact hsch a sols1 hGa hNEa hsa sol hs1
    · exact ih items idx more hG hNE hrest sol hs2

theorem tryIdxsWith_sound
    {sch : List (Item P S) → Option (List (List (Item P S)))}
    (hsch : ∀ its sols2, Good ov its → NoEmpty its → sch its = some sols2 →
      ∀ sol ∈ sols2, Sound ov sol) :
    ∀ (il : List Nat) (items : List (Item P S)) (sols : List (List (Item P S))),
      Good ov items → NoEmpty items →
      tryIdxsWith ov sch items il = some sols → ∀ sol ∈ sols, Sound ov sol := by
  intro il
  induction il with
  | nil =>
    intro items sols _ _ h sol hsol
    rw [tryIdxsWith] at h
    cases h
    cases hsol
  | cons idx rest ih =>
    intro items sols hG hNE h sol hsol
    obtain ⟨sols1, more, rfl, hsl, hrest⟩ := tryIdxsWith_cons_inv h
    rcases List.mem_append.mp hsol with hs1 | hs2
    · exact trySlotsWith_sound hsch _ items idx sols1 hG hNE hsl sol hs1
    · exact ih items more hG hNE hrest sol hs2

theorem schedulesF_sound :
    ∀ (fuel : Nat) (items : List (Item P S)) (sols : List (List (Item P S))),
      Good ov items → NoEmpty items → schedulesF ov fuel items = some sols →
      ∀ sol ∈ sols, Sound ov sol := by
  intro fuel
  induction fuel with
  | zero => intro items sols _ _ h; cases h
  | succ fuel ih =>
    intro items sols hG hNE h sol hsol
    rw [schedulesF] at h
    split at h
    · rename_i hemp
      cases h
      rw [List.mem_singleton] at hsol
      subst hsol
      have hlen1 : ∀ i, i < sol.length → (getIt sol i).slots.length = 1 := by
        intro i hi
        have hhem : (List.range sol.length).filter
            (fun i => (getIt sol i).unscheduled) = [] := List.isEmpty_iff.mp hemp
        have hnu : ¬ ((getIt sol i).unscheduled = true) := by
          have := List.filter_eq_nil.mp hhem i (List.mem_range.mpr hi)
          simpa using this
        unfold Item.unscheduled at hnu
        have hgt : ¬ (1 < (getIt sol i).slots.length) := by simpa using hnu
        have hne0 : (getIt sol i).slots.length ≠ 0 :=
          fun h0 => hNE i hi (List.length_eq_zero.mp h0)
        omega
      refine ⟨hlen1, ?_⟩
      intro i hi j hj hne hop t ht u hu
      have hsched : (getIt sol i).scheduled = true := by
        unfold Item.scheduled
        rw [hlen1 i hi]
        rfl
      exact hG i hi j hj hne (fun f => f) hop hsched t ht u hu
    · exact tryIdxsWith_sound (fun its sols2 => ih its sols2) _ items sols hG hNE h sol hsol

end EngineLemmas

/-!
Lemmas about the time-slot layer.
-/

theorem overlaps_time_time (a b : TimeSlot) :
    PySlot.overlaps (.time a) (.time b) = Except.ok (a.time_overlaps b && a.shares_days b) :=
  rfl

theorem time_overlaps_symm (a b : TimeSlot) : a.time_overlaps b = b.time_overlaps a := by
  unfold TimeSlot.time_overlaps TimeSlot.interval
  dsimp only
  apply decide_eq_decide.mpr
  omega

theorem shares_days_symm (a b : TimeSlot) : a.shares_days b = b.shares_days a := by
  unfold TimeSlot.shares_days
  rw [Bool.eq_iff_iff]
  simp only [List.any_eq_true, decide_eq_true_eq]
  constructor
  · rintro ⟨d, hd, hdb⟩
    exact ⟨d, hdb, hd⟩
  · rintro ⟨d, hd, hda⟩
    exact ⟨d, hda, hd⟩

/-- Helper for witnesses: a list of meetings none of which is scheduled is
vacuously arc-consistent. -/
theorem good_of_no_scheduled {P S : Type} [DecidableEq P] [DecidableEq S]
    {ov : S → S → Bool} {items : List (Item P S)}
    (h : ∀ i, i < items.length → (getIt items i).scheduled = false) : Good ov items :=
  fun i hi _ _ _ _ _ hsched => absurd hsched (by rw [h i hi]; simp)

/-!
Claim theorems.
-/

/-- Claim C1, counterexample: `schedules` yields the input list as a
"solution" even when a meeting has zero candidate slots, because the base
case only checks that no meeting is `unscheduled` (more than one slot).
The yielded meeting does not have exactly one slot, refuting the claim as
stated for arbitrary inputs. -/
theorem C1_counterexample :
    schedulesF ovNat 1 [c1zero] = some [[c1zero]] ∧ c1zero.slots.length ≠ 1 :=
  ⟨rfl, by decide⟩

/-- Claim C1, amended: for every input whose meetings all have non-empty
candidate sets and whose already-scheduled meetings are mutually
arc-consistent (`Good`), every solution yielded by `schedules` gives each
meeting exactly one slot, and the slots of any two meetings sharing a
participant do not overlap. -/
theorem C1_amended_soundness {P S : Type} [DecidableEq P] [DecidableEq S]
    (ov : S → S → Bool) (items : List (Item P S))
    (hG : Good ov items) (hNE : NoEmpty items) :
    ∀ fuel sols, schedulesF ov fuel items = some sols → ∀ sol ∈ sols, Sound ov sol :=
  fun fuel sols h sol hs => schedulesF_sound fuel items sols hG hNE h sol hs

/-- Claim C1, witness: the amended soundness theorem applied to the concrete
two-meeting instance `c10items`, whose first yielded solution is `c10sol`. -/
theorem C1_amended_soundness_witness : Sound ovNat c10sol :=
  C1_amended_soundness ovNat c10items
    (good_of_no_scheduled (by decide)) (by unfold NoEmpty; decide)
    4 c10sols (by decide) c10sol (by decide)

/-- Claim C2: `assign` clones the caller's list (the clone equals the input
value, so the input is untouched), and whenever it returns a list, no
meeting in it has an empty candidate set — a propagation step that empties
a candidate set makes `assign` return the absent value instead of a
partially-propagated list. -/
theorem C2_assign_contradiction_absent {P S : Type} [DecidableEq P] [DecidableEq S]
    (ov : S → S → Bool) (items : List (Item P S)) (idx : Nat) (s : S)
    (hNE : NoEmpty items) :
    items.map Item.copy = items ∧
    ∀ fuel out, assignF ov fuel items idx s = some (some out) → NoEmpty out := by
  refine ⟨map_copy_id items, ?_⟩
  intro fuel out h
  unfold assignF at h
  rw [map_copy_id] at h
  exact eliminateF_noEmpty fuel items idx _ out hNE h

/-- Claim C2, witness: the theorem applied to `c10items`, assigning meeting 0
to slot 1, with resulting list `assignOut`. -/
theorem C2_assign_contradiction_absent_witness :
    NoEmpty c10items ∧ c10items.map Item.copy = c10items ∧ NoEmpty assignOut := by
  have hne : NoEmpty c10items := by unfold NoEmpty; decide
  exact ⟨hne, (C2_assign_contradiction_absent ovNat c10items 0 1 hne).1,
    (C2_assign_contradiction_absent ovNat c10items 0 1 hne).2 5 assignOut (by decide)⟩

/-- Claim C3: the two-meeting instance sharing participant 0, both meetings
restricted to the single slot 5, is yielded once by `schedules` (the Python
code yields the input because neither meeting is `unscheduled`), not zero
times as the specification requires. -/
theorem C3_shared_singleton_instance_yields_one :
    schedulesF ovNat 1 c3items = some [c3items] ∧
    (getIt c3items 0).overlapping_participants (getIt c3items 1) = true ∧
    (getIt c3items 0).slots = [5] ∧ (getIt c3items 1).slots = [5] := by
  decide

/-- Claim C4: whenever `eliminate` returns a list, it has the same length as
the input, each meeting's candidate list is a sublist of its input candidate
list (never widened, never reordered) with count less than or equal to the
input count; and `eliminate` terminates: with fuel exceeding the total
number of candidate slots the fuel-indexed model never runs out. -/
theorem C4_eliminate_monotone_and_terminates {P S : Type} [DecidableEq P] [DecidableEq S]
    (ov : S → S → Bool) (items : List (Item P S)) (idx : Nat) (fn : S → Bool) :
    (∀ fuel out, eliminateF ov fuel items idx fn = some (some out) →
      out.length = items.length ∧
      ∀ j, j < items.length → (getIt out j).slots.Sublist (getIt items j).slots ∧
        (getIt out j).slots.length ≤ (getIt items j).slots.length) ∧
    (∀ fuel, totalSlots items < fuel → eliminateF ov fuel items idx fn ≠ none) := by
  constructor
  · intro fuel out h
    have hLe := eliminateF_itemLe fuel items idx fn out h
    refine ⟨hLe.length_eq, ?_⟩
    intro j _
    have hs := (forall2_itemLe_getIt hLe j).2.2
    exact ⟨hs, hs.length_le⟩
  · intro fuel hf
    exact eliminateF_ne_none fuel items idx fn hf

/-- Claim C4, witness: the theorem applied to the concrete elimination of all
slots other than 1 from meeting 0 of `c10items`. -/
theorem C4_eliminate_monotone_and_terminates_witness :
    (assignOut.length = c10items.length ∧
      ∀ j, j < c10items.length → (getIt assignOut j).slots.Sublist (getIt c10items j).slots ∧
        (getIt assignOut j).slots.length ≤ (getIt c10items j).slots.length) ∧
    eliminateF ovNat 5 c10items 0 (fun x => decide (x ≠ 1)) ≠ none :=
  ⟨(C4_eliminate_monotone_and_terminates ovNat c10items 0 (fun x => decide (x ≠ 1))).1
      5 assignOut (by decide),
    (C4_eliminate_monotone_and_terminates ovNat c10items 0 (fun x => decide (x ≠ 1))).2
      5 (by decide)⟩

/-- Claim C5, counterexample: the `Item` dataclass constructor performs no
validation, so a meeting with an empty candidate collection comes into
existence (and is classified `impossible`), refuting rejection at
construction time. -/
theorem C5_counterexample :
    (Item.mk "m" ([] : List Nat) ([] : List Nat)).slots = [] ∧
    (Item.mk "m" ([] : List Nat) ([] : List Nat)).impossible = true :=
  ⟨rfl, rfl⟩

/-- Claim C5, amended: constructing an `Item` with an empty slot collection
succeeds for every name and participant list; the result is merely
classified `impossible`, neither `scheduled` nor `unscheduled`. -/
theorem C5_empty_slots_constructible (P S : Type) (name : String) (ps : List P) :
    (Item.mk name ps ([] : List S)).impossible = true ∧
    (Item.mk name ps ([] : List S)).scheduled = false ∧
    (Item.mk name ps ([] : List S)).unscheduled = false :=
  ⟨rfl, rfl, rfl⟩

/-- Claim C6, counterexample: `Item.copy` is `dataclasses.replace(self)`, so
the clone carries the same participant-set and slot-set references as the
original — the collections are shared, not distinct objects. -/
theorem C6_counterexample :
    (copyObj ⟨"m", 0, 1⟩).pref = (ItemObj.mk "m" 0 1).pref ∧
    (copyObj ⟨"m", 0, 1⟩).sref = (ItemObj.mk "m" 0 1).sref :=
  ⟨rfl, rfl⟩

/-- Claim C6, amended: the clone aliases the original's collections, but
`remove_slots` rebinds the clone's slots field to a freshly allocated
collection instead of mutating the shared one, so the collection the
original references is left unchanged by `remove_slots` on the clone. -/
theorem C6_copy_rebind_frame {S : Type} (st : List (List S)) (it : ItemObj) (fn : S → Bool)
    (h : it.sref < st.length) :
    (copyObj it).sref = it.sref ∧
    ((removeSlotsObj st (copyObj it) fn).2.2).getD it.sref [] = st.getD it.sref [] := by
  refine ⟨rfl, ?_⟩
  unfold removeSlotsObj copyObj
  dsimp only
  split
  · exact List.getD_append st _ [] it.sref h
  · rfl

/-- Claim C6, witness: the amended theorem applied to a concrete store and
item object. -/
theorem C6_copy_rebind_frame_witness :
    (copyObj ⟨"m", 0, 0⟩).sref = (ItemObj.mk "m" 0 0).sref ∧
    ((removeSlotsObj [[1, 2, 3]] (copyObj ⟨"m", 0, 0⟩) (fun x => decide (x = 2))).2.2).getD 0 [] =
      ([[1, 2, 3]] : List (List Nat)).getD 0 [] :=
  C6_copy_rebind_frame [[1, 2, 3]] ⟨"m", 0, 0⟩ (fun x => decide (x = 2)) (by decide)

/-- Claim C7: `remove_slots` with a predicate matching no slot returns false
and leaves the meeting exactly as it was; in general the surviving slots are
exactly the input slots filtered by the predicate in their original order,
and the changed flag is true precisely when the collection shrank. -/
theorem C7_remove_slots_spec {P S : Type} [DecidableEq P] [DecidableEq S]
    (it : Item P S) (fn : S → Bool) :
    ((∀ u ∈ it.slots, fn u = false) → it.remove_slots fn = (false, it)) ∧
    ((it.remove_slots fn).2).slots = it.slots.filter (fun s => !fn s) ∧
    ((it.remove_slots fn).1 = true ↔
      ((it.remove_slots fn).2).slots.length < it.slots.length) := by
  refine ⟨?_, remove_slots_slots it fn, remove_slots_true_iff it fn⟩
  intro hnone
  have hfil : it.slots.filter (fun s => !fn s) = it.slots :=
    List.filter_eq_self.mpr (fun a ha => by rw [hnone a ha]; rfl)
  unfold Item.remove_slots
  dsimp only
  rw [hfil, if_neg (Nat.lt_irrefl _)]

/-- Claim C7, witness: the theorem applied to a concrete meeting with a
predicate matching nothing. -/
theorem C7_remove_slots_spec_witness :
    Item.remove_slots (⟨"m", [0], [1, 2]⟩ : Item Nat Nat) (fun _ => false) =
      (false, (⟨"m", [0], [1, 2]⟩ : Item Nat Nat)) :=
  (C7_remove_slots_spec ⟨"m", [0], [1, 2]⟩ (fun _ => false)).1 (fun _ _ => rfl)

/-- Claim C8, counterexample: a zero-duration `TimeSlot` is equal to itself
yet `overlaps` returns false on it, refuting reflexive-consistency of
`overlaps` with equality as claimed for every same-kind pair. -/
theorem C8_counterexample :
    c8slot = c8slot ∧ PySlot.overlaps (.time c8slot) (.time c8slot) = Except.ok false :=
  ⟨rfl, rfl⟩

/-- Claim C8, amended: `overlaps` is symmetric on every same-kind pair (both
for the base kind and for `TimeSlot`), the base slot overlaps itself, and a
`TimeSlot` with positive duration and a non-empty day set overlaps itself;
reflexive-consistency fails only for degenerate time slots (zero duration or
empty day set). -/
theorem C8_overlaps_symm_and_refl_amended :
    (∀ a b : TimeSlot,
      PySlot.overlaps (.time a) (.time b) = PySlot.overlaps (.time b) (.time a)) ∧
    PySlot.overlaps .base .base = Except.ok true ∧
    (∀ a : TimeSlot, 0 < a.duration → a.days ≠ [] →
      PySlot.overlaps (.time a) (.time a) = Except.ok true) := by
  refine ⟨?_, rfl, ?_⟩
  · intro a b
    rw [overlaps_time_time, overlaps_time_time, time_overlaps_symm, shares_days_symm]
  · intro a hdur hdays
    rw [overlaps_time_time]
    have h1 : a.time_overlaps a = true := by
      unfold TimeSlot.time_overlaps TimeSlot.interval
      dsimp only
      apply decide_eq_true
      omega
    have h2 : a.shares_days a = true := by
      unfold TimeSlot.shares_days
      cases hd : a.days with
      | nil => exact absurd hd hdays
      | cons d t =>
        exact List.any_eq_true.mpr ⟨d, List.mem_cons_self d t, by simp⟩
    rw [h1, h2]
    rfl

/-- Claim C8, witness: the amended theorem at a concrete positive-duration
time slot. -/
theorem C8_overlaps_symm_and_refl_amended_witness :
    PySlot.overlaps (.time ⟨9, 0, 30, [(Day.monday, 0)]⟩)
      (.time ⟨9, 0, 30, [(Day.monday, 0)]⟩) = Except.ok true :=
  C8_overlaps_symm_and_refl_amended.2.2 ⟨9, 0, 30, [(Day.monday, 0)]⟩ (by decide) (by decide)

/-- Claim C9, counterexample: invoking `overlaps` with a base `Slot` receiver
and a `TimeSlot` argument silently returns false (Python `==` across
dataclass kinds), refuting the claim that every incompatible-kind invocation
fails with a reported error. -/
theorem C9_counterexample :
    PySlot.overlaps .base (.time c9slot) = Except.ok false :=
  rfl

/-- Claim C9, amended: only the `TimeSlot` implementation of `overlaps`
checks the argument kind and raises on a foreign kind; the base `Slot`
implementation compares by equality and silently returns false for a
mismatched kind. -/
theorem C9_overlaps_kind_mismatch_amended :
    (∀ t : TimeSlot, PySlot.overlaps (.time t) .base =
      Except.error "Can only compare slots of the same type") ∧
    (∀ t : TimeSlot, PySlot.overlaps .base (.time t) = Except.ok false) :=
  ⟨fun _ => rfl, fun _ => rfl⟩

/-- Claim C10: on the two-meeting instance `c10items` (disjoint participants,
two candidate slots each), `schedules` yields eight solutions and the
complete assignment `c10sol` appears twice — the top-level loop over every
unscheduled meeting index revisits the same assignments, so the yield
sequence is not duplicate-free. -/
theorem C10_duplicate_solutions :
    ∃ sols, schedulesF ovNat 4 c10items = some sols ∧ 2 ≤ sols.count c10sol ∧
      ∀ it ∈ c10sol, it.scheduled = true :=
  ⟨c10sols, by decide, by decide, by decide⟩
